import Mathlib

/-!
# Verification of `atomic_tx.c`

A shallow embedding of the fee calculator `tx_fees` and of the two transfer
routines `atomic_transfer_1` (goto style) and `atomic_transfer_2` (nested-if
style), followed by theorems about them.

Machine integers: every `uint32_t` is a `Nat` below `UINT32_MOD = 2^32`;
`-=` and `+=` on a `uint32_t` are `sub_u32` and `add_u32`, which reduce modulo
`2^32` as C unsigned arithmetic does.  The `int` return code is an `Int`.

Concurrency: threads that call `atomic_transfer_1` are modelled as a step
function per statement (`thread_step`) on the shared `tx_state`, run under an
arbitrary schedule (`exec`); a thread at `pthread_mutex_lock` cannot move while
the mutex is held.
-/

namespace AtomicTx

/-! ## Data model -/

/-- Number of values of a `uint32_t`. -/
def UINT32_MOD : Nat := 4294967296

/-- C `a + b` on `uint32_t` operands. -/
def add_u32 (a b : Nat) : Nat := (a + b) % UINT32_MOD

/-- C `a - b` on `uint32_t` operands (both below `2^32`). -/
def sub_u32 (a b : Nat) : Nat := (a + UINT32_MOD - b) % UINT32_MOD

/-- The struct `tx_data` (source lines 5-8). -/
structure tx_data where
  sender : Nat
  receiver : Nat
  deriving DecidableEq

/-! ## Fee calculator -/

/-- The function `tx_fees` (source lines 15-24). -/
def tx_fees (amount : Nat) : Nat :=
  if amount ≤ 10 then
    2
  else if amount ≤ 100 then
    5
  else if amount ≤ 500 then
    10
  else
    amount / 50

/-! ## Transfer routines, state passing -/

/-- Label `EXIT` of `atomic_transfer_1` (lines 50-52): unlock and return `ret`. -/
def atomic_transfer_1_EXIT (ret : Int) (data : tx_data) : Int × tx_data :=
  (ret, data)

/-- Label `EXIT_1` of `atomic_transfer_1` (lines 48-49): `data->sender += fees`,
then fall through to `EXIT`. -/
def atomic_transfer_1_EXIT_1 (ret : Int) (fees : Nat) (data : tx_data) : Int × tx_data :=
  let data := { data with sender := add_u32 data.sender fees }
  atomic_transfer_1_EXIT ret data

/-- The function `atomic_transfer_1` (source lines 26-53) on the protected data:
returns the return code and the data after the call. -/
def atomic_transfer_1 (data : tx_data) (amount : Nat) : Int × tx_data :=
  let ret : Int := 0
  let fees := tx_fees amount
  if data.sender < fees then
    let ret : Int := -1
    atomic_transfer_1_EXIT ret data
  else
    let data := { data with sender := sub_u32 data.sender fees }
    if data.sender < amount then
      let ret : Int := -2
      atomic_transfer_1_EXIT_1 ret fees data
    else
      let data := { data with sender := sub_u32 data.sender amount }
      let data := { data with receiver := add_u32 data.receiver amount }
      atomic_transfer_1_EXIT ret data

/-- The function `atomic_transfer_2` (source lines 55-77) on the protected data:
returns the return code and the data after the call. -/
def atomic_transfer_2 (data : tx_data) (amount : Nat) : Int × tx_data :=
  let ret : Int := 0
  let fees := tx_fees amount
  if data.sender ≥ fees then
    let data := { data with sender := sub_u32 data.sender fees }
    if data.sender ≥ amount then
      let data := { data with sender := sub_u32 data.sender amount }
      let data := { data with receiver := add_u32 data.receiver amount }
      (ret, data)
    else
      let ret : Int := -2
      let data := { data with sender := add_u32 data.sender fees }
      (ret, data)
  else
    let ret : Int := -1
    (ret, data)

/-! ## Callers: a sequence of calls on one account pair -/

/-- A caller that applies `transfer` to the listed amounts one after another on
the same data (as `main` does with its two calls): the return codes in call
order and the data after the last call. -/
def run_seq (transfer : tx_data → Nat → Int × tx_data) (data : tx_data) :
    List Nat → List Int × tx_data
  | [] => ([], data)
  | amount :: rest =>
    let r := transfer data amount
    let rs := run_seq transfer r.2 rest
    (r.1 :: rs.1, rs.2)

/-- Sum of `tx_fees amount` over the calls whose return code is `0`. -/
def fees_of_successes : List Nat → List Int → Nat
  | amount :: rest, ret :: rets =>
    (if ret = 0 then tx_fees amount else 0) + fees_of_successes rest rets
  | _, _ => 0

/-- Balance total after the sequence of calls: final sender plus final receiver. -/
def final_total (transfer : tx_data → Nat → Int × tx_data) (data : tx_data)
    (amounts : List Nat) : Nat :=
  (run_seq transfer data amounts).2.sender + (run_seq transfer data amounts).2.receiver

/-- Fees of the calls of the sequence that returned `0`. -/
def burned (transfer : tx_data → Nat → Int × tx_data) (data : tx_data)
    (amounts : List Nat) : Nat :=
  fees_of_successes amounts (run_seq transfer data amounts).1

/-- Every call of the sequence that returns `0` credits the receiver without
reaching `2^32`. -/
def credits_fit (transfer : tx_data → Nat → Int × tx_data) (data : tx_data) :
    List Nat → Bool
  | [] => true
  | amount :: rest =>
    (if (transfer data amount).1 = 0 then decide (data.receiver + amount < UINT32_MOD)
      else true) &&
      credits_fit transfer (transfer data amount).2 rest

/-! ## Transfer routines with checked arithmetic on the sender field -/

/-- Checked `a - b`: no result when the subtraction would go below zero. -/
def checked_sub_u32 (a b : Nat) : Option Nat :=
  if b ≤ a then some (a - b) else none

/-- Checked `a + b`: no result when the sum would exceed `2^32 - 1`. -/
def checked_add_u32 (a b : Nat) : Option Nat :=
  if a + b < UINT32_MOD then some (a + b) else none

/-- Label `EXIT_1` of `atomic_transfer_1` with `data->sender += fees` checked. -/
def atomic_transfer_1_checked_EXIT_1 (ret : Int) (fees : Nat) (data : tx_data) :
    Option (Int × tx_data) :=
  match checked_add_u32 data.sender fees with
  | none => none
  | some s =>
    let data := { data with sender := s }
    some (atomic_transfer_1_EXIT ret data)

/-- The function `atomic_transfer_1` with every `-=` and `+=` on `data->sender`
checked; `none` is the arithmetic error. The receiver credit stays modular. -/
def atomic_transfer_1_checked (data : tx_data) (amount : Nat) : Option (Int × tx_data) :=
  let ret : Int := 0
  let fees := tx_fees amount
  if data.sender < fees then
    let ret : Int := -1
    some (atomic_transfer_1_EXIT ret data)
  else
    match checked_sub_u32 data.sender fees with
    | none => none
    | some s =>
      let data := { data with sender := s }
      if data.sender < amount then
        let ret : Int := -2
        atomic_transfer_1_checked_EXIT_1 ret fees data
      else
        match checked_sub_u32 data.sender amount with
        | none => none
        | some s =>
          let data := { data with sender := s }
          let data := { data with receiver := add_u32 data.receiver amount }
          some (atomic_transfer_1_EXIT ret data)

/-- The function `atomic_transfer_2` with every `-=` and `+=` on `data->sender`
checked; `none` is the arithmetic error. The receiver credit stays modular. -/
def atomic_transfer_2_checked (data : tx_data) (amount : Nat) : Option (Int × tx_data) :=
  let ret : Int := 0
  let fees := tx_fees amount
  if data.sender ≥ fees then
    match checked_sub_u32 data.sender fees with
    | none => none
    | some s =>
      let data := { data with sender := s }
      if data.sender ≥ amount then
        match checked_sub_u32 data.sender amount with
        | none => none
        | some s =>
          let data := { data with sender := s }
          let data := { data with receiver := add_u32 data.receiver amount }
          some (ret, data)
      else
        let ret : Int := -2
        match checked_add_u32 data.sender fees with
        | none => none
        | some s =>
          let data := { data with sender := s }
          some (ret, data)
  else
    let ret : Int := -1
    some (ret, data)

/-! ## Transfer routines with the mutex and an event trace -/

/-- The struct `tx_state` (source lines 10-13); `mutex` is `true` while held. -/
structure tx_state where
  data : tx_data
  mutex : Bool
  deriving DecidableEq

/-- Program points of `atomic_transfer_1`, one per statement of lines 27-52. -/
inductive Pc where
  | at_entry
  | at_lock
  | at_check_fee
  | at_sub_fee
  | at_check_amount
  | at_sub_amount
  | at_credit
  | at_EXIT_1
  | at_EXIT
  | returned
  deriving DecidableEq

/-- The program point is inside the critical section (lines 33-51). -/
def Pc.in_cs : Pc → Bool
  | Pc.at_entry => false
  | Pc.at_lock => false
  | Pc.returned => false
  | _ => true

/-- One thread inside a call of `atomic_transfer_1`: its argument `amount`, its
program point and its locals `ret` and `fees`. -/
structure Thread where
  amount : Nat
  pc : Pc
  ret : Int
  fees : Nat
  deriving DecidableEq

/-- One statement of `atomic_transfer_1` executed by thread `t` on the shared
`tx_state`; `none` when the thread cannot move: it has returned, or it is at
`pthread_mutex_lock` and the mutex is held.
* `at_entry`: lines 27-28, `ret = 0; fees = tx_fees(amount)`;
* `at_lock`: lines 30-31, take the mutex;
* `at_check_fee`: lines 33-36; `at_sub_fee`: line 37;
* `at_check_amount`: lines 39-42; `at_sub_amount`: line 43;
* `at_credit`: lines 45-46; `at_EXIT_1`: line 49;
* `at_EXIT`: lines 51-52, release the mutex and return `ret`. -/
def thread_step (t : Thread) (s : tx_state) : Option (Thread × tx_state) :=
  match t.pc with
  | Pc.at_entry =>
    some ({ t with ret := 0, fees := tx_fees t.amount, pc := Pc.at_lock }, s)
  | Pc.at_lock =>
    if s.mutex then none
    else some ({ t with pc := Pc.at_check_fee }, { s with mutex := true })
  | Pc.at_check_fee =>
    if s.data.sender < t.fees then
      some ({ t with ret := -1, pc := Pc.at_EXIT }, s)
    else
      some ({ t with pc := Pc.at_sub_fee }, s)
  | Pc.at_sub_fee =>
    some ({ t with pc := Pc.at_check_amount },
      { s with data := { s.data with sender := sub_u32 s.data.sender t.fees } })
  | Pc.at_check_amount =>
    if s.data.sender < t.amount then
      some ({ t with ret := -2, pc := Pc.at_EXIT_1 }, s)
    else
      some ({ t with pc := Pc.at_sub_amount }, s)
  | Pc.at_sub_amount =>
    some ({ t with pc := Pc.at_credit },
      { s with data := { s.data with sender := sub_u32 s.data.sender t.amount } })
  | Pc.at_credit =>
    some ({ t with pc := Pc.at_EXIT },
      { s with data := { s.data with receiver := add_u32 s.data.receiver t.amount } })
  | Pc.at_EXIT_1 =>
    some ({ t with pc := Pc.at_EXIT },
      { s with data := { s.data with sender := add_u32 s.data.sender t.fees } })
  | Pc.at_EXIT =>
    some ({ t with pc := Pc.returned }, { s with mutex := false })
  | Pc.returned => none

/-- All threads and the one `tx_state` they share. -/
structure Config where
  threads : Nat → Thread
  shared : tx_state

/-- Thread `i` is about to call `atomic_transfer_1` with the `i`-th amount, on
the account pair `d0` with the mutex free. -/
def init_config (d0 : tx_data) (amounts : List Nat) : Config :=
  { threads := fun i => { amount := amounts.getD i 0, pc := Pc.at_entry, ret := 0, fees := 0 },
    shared := { data := d0, mutex := false } }

/-- Run `n` threads under a schedule: each entry names the thread that executes
its next statement. `none` when the schedule names no thread or a thread that
cannot move. -/
def exec (n : Nat) (c : Config) : List Nat → Option Config
  | [] => some c
  | i :: rest =>
    if i < n then
      match thread_step (c.threads i) c.shared with
      | none => none
      | some r => exec n { threads := Function.update c.threads i r.1, shared := r.2 } rest
    else none

/-- Every one of the `n` calls has returned. -/
def all_returned (n : Nat) (c : Config) : Prop :=
  ∀ i, i < n → (c.threads i).pc = Pc.returned

/-- The calls of the listed threads applied sequentially, in list order, by
`atomic_transfer_1` from `d0`: return codes in that order, and final data. -/
def serial (d0 : tx_data) (amounts : List Nat) (order : List Nat) : List Int × tx_data :=
  run_seq atomic_transfer_1 d0 (order.map (fun i => amounts.getD i 0))

/-- What the call of a thread inside the critical section will return and leave
in the data when it runs on alone from data `d`. -/
def rest_of_call (t : Thread) (d : tx_data) : Int × tx_data :=
  match t.pc with
  | Pc.at_check_fee =>
    if d.sender < t.fees then
      (-1, d)
    else if sub_u32 d.sender t.fees < t.amount then
      (-2, { d with sender := add_u32 (sub_u32 d.sender t.fees) t.fees })
    else
      (t.ret, ⟨sub_u32 (sub_u32 d.sender t.fees) t.amount, add_u32 d.receiver t.amount⟩)
  | Pc.at_sub_fee =>
    if sub_u32 d.sender t.fees < t.amount then
      (-2, { d with sender := add_u32 (sub_u32 d.sender t.fees) t.fees })
    else
      (t.ret, ⟨sub_u32 (sub_u32 d.sender t.fees) t.amount, add_u32 d.receiver t.amount⟩)
  | Pc.at_check_amount =>
    if d.sender < t.amount then
      (-2, { d with sender := add_u32 d.sender t.fees })
    else
      (t.ret, ⟨sub_u32 d.sender t.amount, add_u32 d.receiver t.amount⟩)
  | Pc.at_sub_amount =>
    (t.ret, ⟨sub_u32 d.sender t.amount, add_u32 d.receiver t.amount⟩)
  | Pc.at_credit => (t.ret, { d with receiver := add_u32 d.receiver t.amount })
  | Pc.at_EXIT_1 => (t.ret, { d with sender := add_u32 d.sender t.fees })
  | _ => (t.ret, d)

/-- Whether every one of the `n` calls has returned can be computed. -/
instance all_returned_decidable (n : Nat) (c : Config) : Decidable (all_returned n c) := by
  unfold all_returned
  infer_instance

/-- What holds of every configuration the threads can reach, for the list
`order` of the threads that have taken the mutex so far, oldest first: threads
not in `order` have not passed `pthread_mutex_lock`; with the mutex free, the
threads in `order` have returned and data and return codes are those of the
sequential run in that order; with the mutex held, this is so for all but the
last thread of `order`, which is inside the critical section and will finish
its call as `atomic_transfer_1` does from the data it found. -/
structure SerialInv (d0 : tx_data) (amounts : List Nat) (c : Config) (order : List Nat) :
    Prop where
  amount_eq : ∀ i, (c.threads i).amount = amounts.getD i 0
  nodup : order.Nodup
  bound : ∀ i, i ∈ order → i < amounts.length
  outside : ∀ i, i ∉ order → (c.threads i).pc = Pc.at_entry ∨
    ((c.threads i).pc = Pc.at_lock ∧ (c.threads i).ret = 0 ∧
      (c.threads i).fees = tx_fees (c.threads i).amount)
  free : c.shared.mutex = false →
    (∀ i, i ∈ order → (c.threads i).pc = Pc.returned) ∧
    c.shared.data = (serial d0 amounts order).2 ∧
    order.map (fun i => (c.threads i).ret) = (serial d0 amounts order).1
  held : c.shared.mutex = true →
    ∃ (finished : List Nat) (h : Nat), order = finished ++ [h] ∧
      (∀ i, i ∈ finished → (c.threads i).pc = Pc.returned) ∧
      finished.map (fun i => (c.threads i).ret) = (serial d0 amounts finished).1 ∧
      (c.threads h).pc.in_cs = true ∧
      rest_of_call (c.threads h) c.shared.data =
        atomic_transfer_1 (serial d0 amounts finished).2 (c.threads h).amount

/-- Upper bound on the number of statements a thread at this program point
still has to execute. -/
def Pc.remaining : Pc → Nat
  | Pc.at_entry => 8
  | Pc.at_lock => 7
  | Pc.at_check_fee => 6
  | Pc.at_sub_fee => 5
  | Pc.at_check_amount => 4
  | Pc.at_sub_amount => 3
  | Pc.at_credit => 2
  | Pc.at_EXIT_1 => 2
  | Pc.at_EXIT => 1
  | Pc.returned => 0

/-- Upper bound on the number of statements the `n` threads still have to
execute. -/
def work_left (n : Nat) (c : Config) : Nat :=
  ((List.range n).map (fun i => (c.threads i).pc.remaining)).sum

/-! ## Basic facts about the machine arithmetic -/

theorem sub_u32_of_le {a b : Nat} (hb : b ≤ a) (ha : a < UINT32_MOD) :
    sub_u32 a b = a - b := by
  unfold sub_u32 UINT32_MOD at *
  omega

theorem add_u32_of_lt {a b : Nat} (h : a + b < UINT32_MOD) :
    add_u32 a b = a + b := by
  unfold add_u32
  exact Nat.mod_eq_of_lt h

/-! ## Closed forms of the two routines on in-range senders -/

theorem atomic_transfer_1_fee_fail {d : tx_data} {a : Nat} (h : d.sender < tx_fees a) :
    atomic_transfer_1 d a = (-1, d) := by
  simp [atomic_transfer_1, atomic_transfer_1_EXIT, h]

theorem atomic_transfer_2_fee_fail {d : tx_data} {a : Nat} (h : d.sender < tx_fees a) :
    atomic_transfer_2 d a = (-1, d) := by
  simp [atomic_transfer_2, Nat.not_le.mpr h]

theorem atomic_transfer_1_amount_fail {d : tx_data} {a : Nat} (hs : d.sender < UINT32_MOD)
    (h1 : tx_fees a ≤ d.sender) (h2 : d.sender < tx_fees a + a) :
    atomic_transfer_1 d a = (-2, d) := by
  have e1 : sub_u32 d.sender (tx_fees a) = d.sender - tx_fees a := sub_u32_of_le h1 hs
  have e2 : add_u32 (d.sender - tx_fees a) (tx_fees a) = d.sender := by
    rw [add_u32_of_lt (by omega)]
    omega
  have h3 : d.sender - tx_fees a < a := by omega
  simp [atomic_transfer_1, atomic_transfer_1_EXIT, atomic_transfer_1_EXIT_1,
    Nat.not_lt.mpr h1, e1, e2, h3]

theorem atomic_transfer_2_amount_fail {d : tx_data} {a : Nat} (hs : d.sender < UINT32_MOD)
    (h1 : tx_fees a ≤ d.sender) (h2 : d.sender < tx_fees a + a) :
    atomic_transfer_2 d a = (-2, d) := by
  have e1 : sub_u32 d.sender (tx_fees a) = d.sender - tx_fees a := sub_u32_of_le h1 hs
  have e2 : add_u32 (d.sender - tx_fees a) (tx_fees a) = d.sender := by
    rw [add_u32_of_lt (by omega)]
    omega
  have h3 : d.sender - tx_fees a < a := by omega
  simp [atomic_transfer_2, h1, e1, e2, h3]

theorem atomic_transfer_1_success {d : tx_data} {a : Nat} (hs : d.sender < UINT32_MOD)
    (h : tx_fees a + a ≤ d.sender) :
    atomic_transfer_1 d a =
      (0, ⟨d.sender - tx_fees a - a, (d.receiver + a) % UINT32_MOD⟩) := by
  have h1 : tx_fees a ≤ d.sender := by omega
  have e1 : sub_u32 d.sender (tx_fees a) = d.sender - tx_fees a := sub_u32_of_le h1 hs
  have e2 : sub_u32 (d.sender - tx_fees a) a = d.sender - tx_fees a - a :=
    sub_u32_of_le (by omega) (by omega)
  have h3 : ¬ d.sender - tx_fees a < a := by omega
  simp [atomic_transfer_1, atomic_transfer_1_EXIT, Nat.not_lt.mpr h1, e1, e2, h3, add_u32]

theorem atomic_transfer_2_success {d : tx_data} {a : Nat} (hs : d.sender < UINT32_MOD)
    (h : tx_fees a + a ≤ d.sender) :
    atomic_transfer_2 d a =
      (0, ⟨d.sender - tx_fees a - a, (d.receiver + a) % UINT32_MOD⟩) := by
  have h1 : tx_fees a ≤ d.sender := by omega
  have e1 : sub_u32 d.sender (tx_fees a) = d.sender - tx_fees a := sub_u32_of_le h1 hs
  have e2 : sub_u32 (d.sender - tx_fees a) a = d.sender - tx_fees a - a :=
    sub_u32_of_le (by omega) (by omega)
  have h3 : a ≤ d.sender - tx_fees a := by omega
  simp [atomic_transfer_2, h1, e1, e2, h3, add_u32]

/-- The two routines compute the same function. -/
theorem atomic_transfer_1_eq_2 (d : tx_data) (a : Nat) :
    atomic_transfer_1 d a = atomic_transfer_2 d a := by
  simp only [atomic_transfer_1, atomic_transfer_2, atomic_transfer_1_EXIT,
    atomic_transfer_1_EXIT_1, ge_iff_le]
  split_ifs <;> first | rfl | omega

/-- A sequence of calls splits at any point: the second part runs from the
state the first part left. -/
theorem run_seq_append (transfer : tx_data → Nat → Int × tx_data) (pre post : List Nat) :
    ∀ d : tx_data, run_seq transfer d (pre ++ post) =
      ((run_seq transfer d pre).1 ++ (run_seq transfer (run_seq transfer d pre).2 post).1,
        (run_seq transfer (run_seq transfer d pre).2 post).2) := by
  induction pre with
  | nil =>
    intro d
    simp [run_seq]
  | cons a rest ih =>
    intro d
    simp [run_seq, ih]

/-! ## C1: rollback on amount failure -/

/-- C1. Rollback on amount failure: for a 32-bit sender balance `s`, any receiver
balance `r` and any amount `a` with `tx_fees a ≤ s < tx_fees a + a` (plain
integer sum), both `atomic_transfer_1` and `atomic_transfer_2` return `-2` and
leave the state exactly `(s, r)`: the tentative fee deduction is undone. -/
theorem rollback_on_amount_failure (s r a : Nat) (hs : s < UINT32_MOD)
    (h1 : tx_fees a ≤ s) (h2 : s < tx_fees a + a) :
    atomic_transfer_1 ⟨s, r⟩ a = (-2, ⟨s, r⟩) ∧
      atomic_transfer_2 ⟨s, r⟩ a = (-2, ⟨s, r⟩) :=
  ⟨atomic_transfer_1_amount_fail hs h1 h2, atomic_transfer_2_amount_fail hs h1 h2⟩

/-- Instance of C1 at sender 5, receiver 7, amount 4 (fee 2). -/
theorem rollback_on_amount_failure_witness :
    5 < UINT32_MOD ∧ tx_fees 4 ≤ 5 ∧ 5 < tx_fees 4 + 4 ∧
      atomic_transfer_1 ⟨5, 7⟩ 4 = (-2, ⟨5, 7⟩) ∧
      atomic_transfer_2 ⟨5, 7⟩ 4 = (-2, ⟨5, 7⟩) :=
  ⟨by decide, by decide, by decide,
    rollback_on_amount_failure 5 7 4 (by decide) (by decide) (by decide)⟩

/-! ## C2: atomicity of success -/

/-- C2, as stated, fails: at sender 3, receiver `2^32 - 1`, amount 1 the
premise `s ≥ tx_fees a + a` holds and both routines return `0`, but the stored
receiver balance is `0`, not the plain integer `r + a = 2^32`. -/
theorem success_receiver_is_not_plain_sum :
    3 < UINT32_MOD ∧ 4294967295 < UINT32_MOD ∧ 1 < UINT32_MOD ∧ 3 ≥ tx_fees 1 + 1 ∧
      atomic_transfer_1 ⟨3, 4294967295⟩ 1 ≠ (0, ⟨3 - tx_fees 1 - 1, 4294967295 + 1⟩) ∧
      atomic_transfer_2 ⟨3, 4294967295⟩ 1 ≠ (0, ⟨3 - tx_fees 1 - 1, 4294967295 + 1⟩) ∧
      (atomic_transfer_1 ⟨3, 4294967295⟩ 1).2.receiver = 0 ∧
      (atomic_transfer_2 ⟨3, 4294967295⟩ 1).2.receiver = 0 := by
  decide

/-- C2, amended. Atomicity of success: for a 32-bit sender balance `s`, any `r`
and `a` with `s ≥ tx_fees a + a`, both routines return `0` and the new state is
`(s - tx_fees a - a, (r + a) mod 2^32)`; the receiver is the plain integer
`r + a` whenever `r + a < 2^32`. -/
theorem atomicity_of_success (s r a : Nat) (hs : s < UINT32_MOD)
    (h : s ≥ tx_fees a + a) :
    atomic_transfer_1 ⟨s, r⟩ a = (0, ⟨s - tx_fees a - a, (r + a) % UINT32_MOD⟩) ∧
      atomic_transfer_2 ⟨s, r⟩ a = (0, ⟨s - tx_fees a - a, (r + a) % UINT32_MOD⟩) ∧
      (r + a < UINT32_MOD →
        atomic_transfer_1 ⟨s, r⟩ a = (0, ⟨s - tx_fees a - a, r + a⟩) ∧
        atomic_transfer_2 ⟨s, r⟩ a = (0, ⟨s - tx_fees a - a, r + a⟩)) := by
  have t1 := atomic_transfer_1_success (d := ⟨s, r⟩) hs h
  have t2 := atomic_transfer_2_success (d := ⟨s, r⟩) hs h
  refine ⟨t1, t2, fun hr => ?_⟩
  rw [t1, t2, Nat.mod_eq_of_lt hr]
  exact ⟨rfl, rfl⟩

/-- Instance of the amended C2 at the spec's scenario: `(10, 20)` with amount 8
gives `0` and `(0, 28)`. -/
theorem atomicity_of_success_witness :
    10 < UINT32_MOD ∧ 10 ≥ tx_fees 8 + 8 ∧ 20 + 8 < UINT32_MOD ∧
      atomic_transfer_1 ⟨10, 20⟩ 8 = (0, ⟨0, 28⟩) ∧
      atomic_transfer_2 ⟨10, 20⟩ 8 = (0, ⟨0, 28⟩) :=
  ⟨by decide, by decide, by decide,
    (atomicity_of_success 10 20 8 (by decide) (by decide)).2.2 (by decide)⟩

/-! ## C3: atomicity of fee failure -/

/-- C3. Atomicity of fee failure: for every state `(s, r)` and amount `a` with
`s < tx_fees a`, both routines return `-1` and leave the state exactly `(s, r)`,
whatever the relation between `s` and `a`. -/
theorem atomicity_of_fee_failure (s r a : Nat) (h : s < tx_fees a) :
    atomic_transfer_1 ⟨s, r⟩ a = (-1, ⟨s, r⟩) ∧
      atomic_transfer_2 ⟨s, r⟩ a = (-1, ⟨s, r⟩) :=
  ⟨atomic_transfer_1_fee_fail h, atomic_transfer_2_fee_fail h⟩

/-- Instance of C3 at the spec's scenario: `(0, 28)` with amount 8 gives `-1`
and `(0, 28)`. -/
theorem atomicity_of_fee_failure_witness :
    0 < tx_fees 8 ∧
      atomic_transfer_1 ⟨0, 28⟩ 8 = (-1, ⟨0, 28⟩) ∧
      atomic_transfer_2 ⟨0, 28⟩ 8 = (-1, ⟨0, 28⟩) :=
  ⟨by decide, atomicity_of_fee_failure 0 28 8 (by decide)⟩

/-! ## C4: fee table -/

/-- C4. Fee table: `tx_fees a` is 2 for `a ≤ 10`, 5 for `11 ≤ a ≤ 100`, 10 for
`101 ≤ a ≤ 500` and `a / 50` (floor) for `a > 500`; a 32-bit amount gives a
32-bit fee; and the fees at 0, 10, 11, 100, 101, 500, 501, 1000 are
2, 2, 5, 5, 10, 10, 10, 20. -/
theorem fee_table (a : Nat) :
    (a ≤ 10 → tx_fees a = 2) ∧
      (11 ≤ a → a ≤ 100 → tx_fees a = 5) ∧
      (101 ≤ a → a ≤ 500 → tx_fees a = 10) ∧
      (500 < a → tx_fees a = a / 50) ∧
      (a < UINT32_MOD → tx_fees a < UINT32_MOD) ∧
      tx_fees 0 = 2 ∧ tx_fees 10 = 2 ∧ tx_fees 11 = 5 ∧ tx_fees 100 = 5 ∧
      tx_fees 101 = 10 ∧ tx_fees 500 = 10 ∧ tx_fees 501 = 10 ∧ tx_fees 1000 = 20 := by
  refine ⟨?_, ?_, ?_, ?_, ?_, by decide, by decide, by decide, by decide,
    by decide, by decide, by decide, by decide⟩
  · intro h
    simp [tx_fees, h]
  · intro h1 h2
    have : ¬ a ≤ 10 := by omega
    simp [tx_fees, this, h2]
  · intro h1 h2
    have n1 : ¬ a ≤ 10 := by omega
    have n2 : ¬ a ≤ 100 := by omega
    simp [tx_fees, n1, n2, h2]
  · intro h
    have n1 : ¬ a ≤ 10 := by omega
    have n2 : ¬ a ≤ 100 := by omega
    have n3 : ¬ a ≤ 500 := by omega
    simp [tx_fees, n1, n2, n3]
  · intro h
    unfold tx_fees UINT32_MOD at *
    split_ifs <;> omega

/-- Instance of C4 in the top tier: the fee of 1234 is `1234 / 50 = 24`. -/
theorem fee_table_witness : 500 < 1234 ∧ tx_fees 1234 = 1234 / 50 ∧ tx_fees 1234 = 24 :=
  ⟨by decide, (fee_table 1234).2.2.2.1 (by decide), by decide⟩

/-! ## C5: conservation over a sequence of calls -/

/-- The three outcomes of one call on an in-range sender. -/
theorem atomic_transfer_1_cases (d : tx_data) (a : Nat) (hs : d.sender < UINT32_MOD) :
    (d.sender < tx_fees a ∧ atomic_transfer_1 d a = (-1, d)) ∨
      (tx_fees a ≤ d.sender ∧ d.sender < tx_fees a + a ∧ atomic_transfer_1 d a = (-2, d)) ∨
      (tx_fees a + a ≤ d.sender ∧ atomic_transfer_1 d a =
        (0, ⟨d.sender - tx_fees a - a, (d.receiver + a) % UINT32_MOD⟩)) := by
  by_cases h1 : d.sender < tx_fees a
  · exact Or.inl ⟨h1, atomic_transfer_1_fee_fail h1⟩
  · by_cases h2 : d.sender < tx_fees a + a
    · exact Or.inr (Or.inl ⟨by omega, h2, atomic_transfer_1_amount_fail hs (by omega) h2⟩)
    · exact Or.inr (Or.inr ⟨by omega, atomic_transfer_1_success hs (by omega)⟩)

/-- Effect of one call on the balance total. -/
theorem atomic_transfer_1_step (d : tx_data) (a : Nat) (hs : d.sender < UINT32_MOD) :
    (atomic_transfer_1 d a).2.sender < UINT32_MOD ∧
      ((atomic_transfer_1 d a).2.sender + (atomic_transfer_1 d a).2.receiver +
          (if (atomic_transfer_1 d a).1 = 0 then tx_fees a else 0)) % UINT32_MOD =
        (d.sender + d.receiver) % UINT32_MOD ∧
      (((atomic_transfer_1 d a).1 = 0 → d.receiver + a < UINT32_MOD) →
        (atomic_transfer_1 d a).2.sender + (atomic_transfer_1 d a).2.receiver +
          (if (atomic_transfer_1 d a).1 = 0 then tx_fees a else 0) =
        d.sender + d.receiver) ∧
      (d.sender + d.receiver < UINT32_MOD →
        ((atomic_transfer_1 d a).1 = 0 → d.receiver + a < UINT32_MOD) ∧
        (atomic_transfer_1 d a).2.sender + (atomic_transfer_1 d a).2.receiver ≤
          d.sender + d.receiver) := by
  rcases atomic_transfer_1_cases d a hs with ⟨_, e⟩ | ⟨_, _, e⟩ | ⟨h, e⟩
  · rw [e]
    simp [hs]
  · rw [e]
    simp [hs]
  · rw [e]
    simp only [if_true]
    unfold UINT32_MOD at *
    refine ⟨by omega, by omega, ?_, ?_⟩
    · intro hfit
      have := hfit trivial
      omega
    · intro hsum
      refine ⟨fun _ => by omega, by omega⟩

/-- Conservation for `atomic_transfer_1` along a sequence, by induction on it. -/
theorem run_seq_1_total (amounts : List Nat) :
    ∀ d : tx_data, d.sender < UINT32_MOD →
      (final_total atomic_transfer_1 d amounts + burned atomic_transfer_1 d amounts) %
          UINT32_MOD = (d.sender + d.receiver) % UINT32_MOD ∧
      (credits_fit atomic_transfer_1 d amounts = true →
        final_total atomic_transfer_1 d amounts + burned atomic_transfer_1 d amounts =
          d.sender + d.receiver) ∧
      (d.sender + d.receiver < UINT32_MOD →
        credits_fit atomic_transfer_1 d amounts = true) := by
  induction amounts with
  | nil =>
    intro d _
    simp [final_total, burned, run_seq, fees_of_successes, credits_fit]
  | cons a rest ih =>
    intro d hs
    obtain ⟨hs1, hmod, hfit, hsmall⟩ := atomic_transfer_1_step d a hs
    obtain ⟨imod, ifit, ismall⟩ := ih (atomic_transfer_1 d a).2 hs1
    simp only [final_total, burned, run_seq, fees_of_successes, credits_fit,
      Bool.and_eq_true] at *
    refine ⟨?_, ?_, ?_⟩
    · unfold UINT32_MOD at *
      omega
    · rintro ⟨c1, c2⟩
      have e1 := ifit c2
      have e2 := hfit (by
        intro h0
        simpa [h0] using c1)
      omega
    · intro hsum
      obtain ⟨g1, g2⟩ := hsmall hsum
      refine ⟨?_, ismall (by omega)⟩
      by_cases h0 : (atomic_transfer_1 d a).1 = 0
      · simpa [h0] using g1 h0
      · simp [h0]

/-- C5, as stated, fails: from `(3, 2^32 - 1)` the single call with amount 1
returns `0` and leaves `(0, 0)`, so the final total plus the fee of the
successful call is `2`, not `S0 + R0 = 2^32 + 2`. -/
theorem conservation_fails_when_credit_wraps :
    3 < UINT32_MOD ∧ 4294967295 < UINT32_MOD ∧ 1 < UINT32_MOD ∧
      run_seq atomic_transfer_1 ⟨3, 4294967295⟩ [1] = ([0], ⟨0, 0⟩) ∧
      run_seq atomic_transfer_2 ⟨3, 4294967295⟩ [1] = ([0], ⟨0, 0⟩) ∧
      final_total atomic_transfer_1 ⟨3, 4294967295⟩ [1] +
        burned atomic_transfer_1 ⟨3, 4294967295⟩ [1] ≠ 3 + 4294967295 ∧
      final_total atomic_transfer_2 ⟨3, 4294967295⟩ [1] +
        burned atomic_transfer_2 ⟨3, 4294967295⟩ [1] ≠ 3 + 4294967295 := by
  decide

/-- C5, amended. Conservation over a sequence: for a 32-bit initial sender
balance and every finite list of amounts applied one after another by
`atomic_transfer_1` (or by `atomic_transfer_2`), the final sender + receiver
plus the fees of exactly the calls that returned `0` is congruent to `S0 + R0`
modulo `2^32`; it equals `S0 + R0` as a plain integer when no successful call
wrapped the receiver credit, which is the case whenever `S0 + R0 < 2^32`. -/
theorem conservation_over_sequence (d : tx_data) (amounts : List Nat)
    (hs : d.sender < UINT32_MOD) :
    ((final_total atomic_transfer_1 d amounts + burned atomic_transfer_1 d amounts) %
          UINT32_MOD = (d.sender + d.receiver) % UINT32_MOD ∧
      (credits_fit atomic_transfer_1 d amounts = true →
        final_total atomic_transfer_1 d amounts + burned atomic_transfer_1 d amounts =
          d.sender + d.receiver) ∧
      (d.sender + d.receiver < UINT32_MOD →
        final_total atomic_transfer_1 d amounts + burned atomic_transfer_1 d amounts =
          d.sender + d.receiver)) ∧
    ((final_total atomic_transfer_2 d amounts + burned atomic_transfer_2 d amounts) %
          UINT32_MOD = (d.sender + d.receiver) % UINT32_MOD ∧
      (credits_fit atomic_transfer_2 d amounts = true →
        final_total atomic_transfer_2 d amounts + burned atomic_transfer_2 d amounts =
          d.sender + d.receiver) ∧
      (d.sender + d.receiver < UINT32_MOD →
        final_total atomic_transfer_2 d amounts + burned atomic_transfer_2 d amounts =
          d.sender + d.receiver)) := by
  have e : atomic_transfer_2 = atomic_transfer_1 := by
    funext x y
    exact (atomic_transfer_1_eq_2 x y).symm
  obtain ⟨hmod, hfit, hsmall⟩ := run_seq_1_total amounts d hs
  rw [e]
  exact ⟨⟨hmod, hfit, fun h => hfit (hsmall h)⟩, ⟨hmod, hfit, fun h => hfit (hsmall h)⟩⟩

/-- Instance of the amended C5: from `(100, 20)` the amounts 8, 5000, 95, 8
return 0, -1, -2, 0 and leave `(80, 36)`; the two fees of 2 account for the
difference from 120. -/
theorem conservation_over_sequence_witness :
    100 < UINT32_MOD ∧ 100 + 20 < UINT32_MOD ∧
      run_seq atomic_transfer_1 ⟨100, 20⟩ [8, 5000, 95, 8] = ([0, -1, -2, 0], ⟨80, 36⟩) ∧
      burned atomic_transfer_1 ⟨100, 20⟩ [8, 5000, 95, 8] = 4 ∧
      final_total atomic_transfer_1 ⟨100, 20⟩ [8, 5000, 95, 8] +
        burned atomic_transfer_1 ⟨100, 20⟩ [8, 5000, 95, 8] = 100 + 20 :=
  ⟨by decide, by decide, by decide, by decide,
    (conservation_over_sequence ⟨100, 20⟩ [8, 5000, 95, 8] (by decide)).1.2.2 (by decide)⟩

/-! ## C6: the sender arithmetic never wraps -/

theorem atomic_transfer_1_checked_eq (d : tx_data) (a : Nat) (hs : d.sender < UINT32_MOD) :
    atomic_transfer_1_checked d a = some (atomic_transfer_1 d a) := by
  by_cases h1 : d.sender < tx_fees a
  · simp [atomic_transfer_1_checked, atomic_transfer_1, h1]
  · have h1' : tx_fees a ≤ d.sender := by omega
    have e1 : sub_u32 d.sender (tx_fees a) = d.sender - tx_fees a := sub_u32_of_le h1' hs
    by_cases h2 : d.sender - tx_fees a < a
    · have e2 : add_u32 (d.sender - tx_fees a) (tx_fees a) = d.sender - tx_fees a + tx_fees a :=
        add_u32_of_lt (by omega)
      have e3 : d.sender - tx_fees a + tx_fees a < UINT32_MOD := by omega
      simp [atomic_transfer_1_checked, atomic_transfer_1, atomic_transfer_1_checked_EXIT_1,
        atomic_transfer_1_EXIT_1, checked_sub_u32, checked_add_u32, h1, h1', h2, e1, e2, e3, hs]
    · have h2' : a ≤ d.sender - tx_fees a := by omega
      have e2 : sub_u32 (d.sender - tx_fees a) a = d.sender - tx_fees a - a :=
        sub_u32_of_le h2' (by omega)
      simp [atomic_transfer_1_checked, atomic_transfer_1, checked_sub_u32, h1, h1', h2, h2',
        e1, e2]

theorem atomic_transfer_2_checked_eq (d : tx_data) (a : Nat) (hs : d.sender < UINT32_MOD) :
    atomic_transfer_2_checked d a = some (atomic_transfer_2 d a) := by
  by_cases h1 : tx_fees a ≤ d.sender
  · have e1 : sub_u32 d.sender (tx_fees a) = d.sender - tx_fees a := sub_u32_of_le h1 hs
    by_cases h2 : a ≤ d.sender - tx_fees a
    · have e2 : sub_u32 (d.sender - tx_fees a) a = d.sender - tx_fees a - a :=
        sub_u32_of_le h2 (by omega)
      simp [atomic_transfer_2_checked, atomic_transfer_2, checked_sub_u32, h1, h2, e1, e2]
    · have e2 : add_u32 (d.sender - tx_fees a) (tx_fees a) = d.sender - tx_fees a + tx_fees a :=
        add_u32_of_lt (by omega)
      have e3 : d.sender - tx_fees a + tx_fees a < UINT32_MOD := by omega
      simp [atomic_transfer_2_checked, atomic_transfer_2, checked_sub_u32, checked_add_u32,
        h1, h2, e1, e2, e3, hs]
  · simp [atomic_transfer_2_checked, atomic_transfer_2, h1]

/-- C6. Non-negativity by construction: for a 32-bit sender balance and every
amount, running `atomic_transfer_1` or `atomic_transfer_2` with each `-=` and
`+=` on `data->sender` checked (a subtraction fails if it would go below zero,
the rollback addition fails if it would exceed `2^32 - 1`) never takes the error
branch, and returns exactly what the unchecked routine returns. -/
theorem sender_arithmetic_never_wraps (d : tx_data) (a : Nat)
    (hs : d.sender < UINT32_MOD) :
    atomic_transfer_1_checked d a = some (atomic_transfer_1 d a) ∧
      atomic_transfer_2_checked d a = some (atomic_transfer_2 d a) :=
  ⟨atomic_transfer_1_checked_eq d a hs, atomic_transfer_2_checked_eq d a hs⟩

/-- Instance of C6 on the rollback path: sender 5, receiver 7, amount 4. -/
theorem sender_arithmetic_never_wraps_witness :
    5 < UINT32_MOD ∧
      atomic_transfer_1_checked ⟨5, 7⟩ 4 = some (atomic_transfer_1 ⟨5, 7⟩ 4) ∧
      atomic_transfer_2_checked ⟨5, 7⟩ 4 = some (atomic_transfer_2 ⟨5, 7⟩ 4) :=
  ⟨by decide, sender_arithmetic_never_wraps ⟨5, 7⟩ 4 (by decide)⟩

/-! ## C7: the two routines agree -/

/-- C7. The goto-style `atomic_transfer_1` and the nested-if `atomic_transfer_2`
return the same code and the same final state on every state and amount. -/
theorem transfer_1_eq_transfer_2 (d : tx_data) (a : Nat) :
    atomic_transfer_1 d a = atomic_transfer_2 d a ∧
      (atomic_transfer_1 d a).1 = (atomic_transfer_2 d a).1 ∧
      (atomic_transfer_1 d a).2 = (atomic_transfer_2 d a).2 := by
  rw [atomic_transfer_1_eq_2 d a]
  exact ⟨rfl, rfl, rfl⟩

/-! ## C8: lock discipline -/

/-- Updating thread `i` does not change what the threads of a list without `i`
returned. -/
theorem map_ret_update (f : Nat → Thread) (i : Nat) (t : Thread) (l : List Nat)
    (h : i ∉ l) :
    l.map (fun j => (Function.update f i t j).ret) = l.map (fun j => (f j).ret) := by
  apply List.map_congr_left
  intro j hj
  have hne : j ≠ i := fun e => h (e ▸ hj)
  simp [Function.update_noteq hne]

/-- The sequential run of `finished ++ [h]` is the run of `finished` followed by
one call with the amount of thread `h`. -/
theorem serial_snoc (d0 : tx_data) (amounts : List Nat) (finished : List Nat) (h : Nat) :
    serial d0 amounts (finished ++ [h]) =
      ((serial d0 amounts finished).1 ++
          [(atomic_transfer_1 (serial d0 amounts finished).2 (amounts.getD h 0)).1],
        (atomic_transfer_1 (serial d0 amounts finished).2 (amounts.getD h 0)).2) := by
  simp [serial, run_seq_append, run_seq]

/-- A thread that has just taken the mutex will finish as `atomic_transfer_1`. -/
theorem rest_of_call_at_check_fee (t : Thread) (d : tx_data) (hpc : t.pc = Pc.at_check_fee)
    (hret : t.ret = 0) (hfees : t.fees = tx_fees t.amount) :
    rest_of_call t d = atomic_transfer_1 d t.amount := by
  simp only [rest_of_call, hpc, hret, hfees, atomic_transfer_1, atomic_transfer_1_EXIT,
    atomic_transfer_1_EXIT_1]

/-- A statement inside the critical section other than the unlock keeps the
mutex, stays inside, and does not change how the call will finish. -/
theorem thread_step_inner (t : Thread) (s : tx_state) (r : Thread × tx_state)
    (hcs : t.pc.in_cs = true) (hne : t.pc ≠ Pc.at_EXIT)
    (hstep : thread_step t s = some r) :
    r.1.amount = t.amount ∧ r.1.pc.in_cs = true ∧ r.2.mutex = s.mutex ∧
      rest_of_call r.1 r.2.data = rest_of_call t s.data := by
  obtain ⟨a, pc, ret, fees⟩ := t
  cases pc
  case at_entry => simp [Pc.in_cs] at hcs
  case at_lock => simp [Pc.in_cs] at hcs
  case returned => simp [Pc.in_cs] at hcs
  case at_EXIT => exact absurd rfl hne
  case at_check_fee =>
    simp only [thread_step] at hstep
    split_ifs at hstep with h <;>
      (simp only [Option.some.injEq] at hstep; subst hstep; simp [rest_of_call, Pc.in_cs, h])
  case at_check_amount =>
    simp only [thread_step] at hstep
    split_ifs at hstep with h <;>
      (simp only [Option.some.injEq] at hstep; subst hstep; simp [rest_of_call, Pc.in_cs, h])
  all_goals
    simp only [thread_step, Option.some.injEq] at hstep
    subst hstep
    simp [rest_of_call, Pc.in_cs]

/-- The unlock: the thread returns its `ret`, the data stay, the mutex is free. -/
theorem thread_step_at_EXIT (t : Thread) (s : tx_state) (r : Thread × tx_state)
    (hpc : t.pc = Pc.at_EXIT) (hstep : thread_step t s = some r) :
    r.1.amount = t.amount ∧ r.1.pc = Pc.returned ∧ r.1.ret = t.ret ∧
      r.2.mutex = false ∧ r.2.data = s.data ∧ rest_of_call t s.data = (t.ret, s.data) := by
  simp only [thread_step, hpc, Option.some.injEq] at hstep
  subst hstep
  simp [rest_of_call, hpc]

/-- The lock: it succeeds only on a free mutex, and leaves the thread at the
first check with the mutex held and the data untouched. -/
theorem thread_step_at_lock (t : Thread) (s : tx_state) (r : Thread × tx_state)
    (hpc : t.pc = Pc.at_lock) (hstep : thread_step t s = some r) :
    s.mutex = false ∧ r.1.amount = t.amount ∧ r.1.pc = Pc.at_check_fee ∧ r.1.ret = t.ret ∧
      r.1.fees = t.fees ∧ r.2.mutex = true ∧ r.2.data = s.data := by
  simp only [thread_step, hpc] at hstep
  split_ifs at hstep with h
  simp only [Option.some.injEq] at hstep
  subst hstep
  simpa using h

/-- The entry: the locals are set, the shared state is untouched. -/
theorem thread_step_at_entry (t : Thread) (s : tx_state) (r : Thread × tx_state)
    (hpc : t.pc = Pc.at_entry) (hstep : thread_step t s = some r) :
    r.1.amount = t.amount ∧ r.1.pc = Pc.at_lock ∧ r.1.ret = 0 ∧
      r.1.fees = tx_fees t.amount ∧ r.2 = s := by
  simp only [thread_step, hpc, Option.some.injEq] at hstep
  subst hstep
  simp

/-- A thread that has returned has no further statement. -/
theorem thread_step_returned (t : Thread) (s : tx_state) (hpc : t.pc = Pc.returned) :
    thread_step t s = none := by
  simp [thread_step, hpc]

/-- A thread outside the critical section that has not returned has not taken
the mutex yet. -/
theorem SerialInv.not_mem_of_outside {d0 : tx_data} {amounts : List Nat} {c : Config}
    {order : List Nat} (hinv : SerialInv d0 amounts c order) (i : Nat)
    (hcs : (c.threads i).pc.in_cs = false) (hret : (c.threads i).pc ≠ Pc.returned) :
    i ∉ order := by
  intro hmem
  cases hm : c.shared.mutex
  · exact hret ((hinv.free hm).1 i hmem)
  · obtain ⟨finished, h, hord, hfin, _, hin, _⟩ := hinv.held hm
    rw [hord, List.mem_append, List.mem_singleton] at hmem
    rcases hmem with hmem | rfl
    · exact hret (hfin i hmem)
    · rw [hcs] at hin
      exact Bool.false_ne_true hin

/-- A thread inside the critical section is the one holder of the mutex. -/
theorem SerialInv.holder {d0 : tx_data} {amounts : List Nat} {c : Config}
    {order : List Nat} (hinv : SerialInv d0 amounts c order) (i : Nat)
    (hcs : (c.threads i).pc.in_cs = true) :
    c.shared.mutex = true ∧ ∃ finished : List Nat, order = finished ++ [i] ∧
      i ∉ finished ∧
      (∀ j, j ∈ finished → (c.threads j).pc = Pc.returned) ∧
      finished.map (fun j => (c.threads j).ret) = (serial d0 amounts finished).1 ∧
      rest_of_call (c.threads i) c.shared.data =
        atomic_transfer_1 (serial d0 amounts finished).2 (c.threads i).amount := by
  have hmem : i ∈ order := by
    by_contra hn
    rcases hinv.outside i hn with h | ⟨h, _, _⟩ <;> rw [h] at hcs <;> simp [Pc.in_cs] at hcs
  cases hm : c.shared.mutex
  · have := (hinv.free hm).1 i hmem
    rw [this] at hcs
    simp [Pc.in_cs] at hcs
  · obtain ⟨finished, h, hord, hfin, hrets, hin, hrest⟩ := hinv.held hm
    have hnd := hinv.nodup
    rw [hord] at hmem hnd
    rw [List.mem_append, List.mem_singleton] at hmem
    rcases hmem with hmem | rfl
    · have := hfin i hmem
      rw [this] at hcs
      simp [Pc.in_cs] at hcs
    · refine ⟨rfl, finished, hord, ?_, hfin, hrets, hrest⟩
      intro hm2
      have := (List.nodup_append.mp hnd).2.2
      exact this hm2 (List.mem_singleton.mpr rfl) 

/-- The invariant holds before any thread has moved. -/
theorem SerialInv.init (d0 : tx_data) (amounts : List Nat) :
    SerialInv d0 amounts (init_config d0 amounts) [] where
  amount_eq := fun _ => rfl
  nodup := List.nodup_nil
  bound := fun i hi => absurd hi (List.not_mem_nil i)
  outside := fun _ _ => Or.inl rfl
  free := fun _ => ⟨fun i hi => absurd hi (List.not_mem_nil i), rfl, rfl⟩
  held := fun h => by simp [init_config] at h

/-- Updating thread `i` keeps the threads of a list without `i` returned. -/
theorem returned_update (f : Nat → Thread) (i : Nat) (t : Thread) (l : List Nat)
    (hnot : i ∉ l) (h : ∀ j, j ∈ l → (f j).pc = Pc.returned) :
    ∀ j, j ∈ l → (Function.update f i t j).pc = Pc.returned := by
  intro j hj
  have hne : j ≠ i := fun e => hnot (e ▸ hj)
  rw [Function.update_noteq hne]
  exact h j hj

/-- Updating thread `i` without changing its amount keeps all amounts. -/
theorem amount_update (f : Nat → Thread) (i : Nat) (t : Thread) (amounts : List Nat)
    (h : ∀ j, (f j).amount = amounts.getD j 0) (ha : t.amount = (f i).amount) :
    ∀ j, (Function.update f i t j).amount = amounts.getD j 0 := by
  intro j
  by_cases hj : j = i
  · subst hj
    rw [Function.update_same, ha]
    exact h j
  · rw [Function.update_noteq hj]
    exact h j

/-- One statement of one thread keeps the invariant, for some order. -/
theorem SerialInv.step {d0 : tx_data} {amounts : List Nat} {c : Config}
    {order : List Nat} (hinv : SerialInv d0 amounts c order) (i : Nat)
    (hi : i < amounts.length) (r : Thread × tx_state)
    (hstep : thread_step (c.threads i) c.shared = some r) :
    ∃ order2, SerialInv d0 amounts
      { threads := Function.update c.threads i r.1, shared := r.2 } order2 := by
  by_cases hcs : (c.threads i).pc.in_cs = true
  · obtain ⟨hm, finished, hord, hnot, hfin, hrets, hrest⟩ := hinv.holder i hcs
    have hmem : i ∈ order := by simp [hord]
    have hout : ∀ j, j ∉ order →
        (Function.update c.threads i r.1 j).pc = Pc.at_entry ∨
        ((Function.update c.threads i r.1 j).pc = Pc.at_lock ∧
          (Function.update c.threads i r.1 j).ret = 0 ∧
          (Function.update c.threads i r.1 j).fees =
            tx_fees (Function.update c.threads i r.1 j).amount) := by
      intro j hj
      have hne : j ≠ i := fun e => hj (e ▸ hmem)
      rw [Function.update_noteq hne]
      exact hinv.outside j hj
    by_cases hexit : (c.threads i).pc = Pc.at_EXIT
    · obtain ⟨ha, hpc, hret, hmu, hdata, hrc⟩ := thread_step_at_EXIT _ _ r hexit hstep
      refine ⟨order, amount_update _ _ _ _ hinv.amount_eq ha, hinv.nodup, hinv.bound, hout,
        ?_, ?_⟩
      · intro _
        have hcall : atomic_transfer_1 (serial d0 amounts finished).2 (amounts.getD i 0) =
            ((c.threads i).ret, c.shared.data) := by
          rw [← hinv.amount_eq i, ← hrest, hrc]
        refine ⟨?_, ?_, ?_⟩
        · intro j hj
          rw [hord, List.mem_append, List.mem_singleton] at hj
          rcases hj with hj | rfl
          · exact returned_update _ _ _ finished hnot hfin j hj
          · show (Function.update c.threads j r.1 j).pc = Pc.returned
            rw [Function.update_same]
            exact hpc
        · show r.2.data = (serial d0 amounts order).2
          rw [hord, serial_snoc, hcall, hdata]
        · show order.map (fun j => (Function.update c.threads i r.1 j).ret) =
            (serial d0 amounts order).1
          rw [hord, serial_snoc, hcall, List.map_append,
            map_ret_update _ _ _ finished hnot, hrets]
          simp [hret]
      · intro h
        have h2 : r.2.mutex = true := h
        rw [hmu] at h2
        exact absurd h2 Bool.false_ne_true
    · obtain ⟨ha, hin, hmu, hrc⟩ := thread_step_inner _ _ r hcs hexit hstep
      refine ⟨order, amount_update _ _ _ _ hinv.amount_eq ha, hinv.nodup, hinv.bound, hout,
        ?_, ?_⟩
      · intro h
        have h2 : r.2.mutex = false := h
        rw [hmu, hm] at h2
        exact absurd h2.symm Bool.false_ne_true
      · intro _
        refine ⟨finished, i, hord, returned_update _ _ _ finished hnot hfin, ?_, ?_, ?_⟩
        · rw [map_ret_update _ _ _ finished hnot]
          exact hrets
        · show (Function.update c.threads i r.1 i).pc.in_cs = true
          rw [Function.update_same]
          exact hin
        · show rest_of_call (Function.update c.threads i r.1 i) r.2.data =
            atomic_transfer_1 (serial d0 amounts finished).2
              (Function.update c.threads i r.1 i).amount
          rw [Function.update_same, hrc, hrest, ha]
  · have hcs2 : (c.threads i).pc.in_cs = false := by
      cases h : (c.threads i).pc.in_cs
      · rfl
      · exact absurd h hcs
    by_cases hretd : (c.threads i).pc = Pc.returned
    · rw [thread_step_returned _ _ hretd] at hstep
      exact absurd hstep (by simp)
    · have hnot : i ∉ order := hinv.not_mem_of_outside i hcs2 hretd
      by_cases hlock : (c.threads i).pc = Pc.at_lock
      · obtain ⟨hm, ha, hpc, hret, hfees, hmu, hdata⟩ :=
          thread_step_at_lock _ _ r hlock hstep
        obtain ⟨hall, hd, hrets⟩ := hinv.free hm
        have hloc : (c.threads i).ret = 0 ∧
            (c.threads i).fees = tx_fees (c.threads i).amount := by
          rcases hinv.outside i hnot with h | ⟨_, h1, h2⟩
          · rw [hlock] at h
            exact absurd h (by decide)
          · exact ⟨h1, h2⟩
        refine ⟨order ++ [i], amount_update _ _ _ _ hinv.amount_eq ha, ?_, ?_, ?_, ?_, ?_⟩
        · exact List.nodup_append.mpr ⟨hinv.nodup, List.nodup_singleton i,
            fun a h1 h2 => hnot (List.mem_singleton.mp h2 ▸ h1)⟩
        · intro j hj
          rw [List.mem_append, List.mem_singleton] at hj
          rcases hj with hj | rfl
          · exact hinv.bound j hj
          · exact hi
        · intro j hj
          rw [List.mem_append, List.mem_singleton, not_or] at hj
          dsimp only
          rw [Function.update_noteq hj.2]
          exact hinv.outside j hj.1
        · intro h
          have h2 : r.2.mutex = false := h
          rw [hmu] at h2
          exact absurd h2.symm Bool.false_ne_true
        · intro _
          refine ⟨order, i, rfl, returned_update _ _ _ order hnot hall, ?_, ?_, ?_⟩
          · rw [map_ret_update _ _ _ order hnot]
            exact hrets
          · show (Function.update c.threads i r.1 i).pc.in_cs = true
            rw [Function.update_same, hpc]
            rfl
          · show rest_of_call (Function.update c.threads i r.1 i) r.2.data =
              atomic_transfer_1 (serial d0 amounts order).2
                (Function.update c.threads i r.1 i).amount
            rw [Function.update_same,
              rest_of_call_at_check_fee r.1 _ hpc (hret.trans hloc.1)
                (by rw [hfees, hloc.2, ha]),
              hdata, hd]
      · have hentry : (c.threads i).pc = Pc.at_entry := by
          cases hp : (c.threads i).pc <;> rw [hp] at hcs2 hretd hlock <;>
            simp [Pc.in_cs] at hcs2 hretd hlock
        obtain ⟨ha, hpc, hret, hfees, hs⟩ := thread_step_at_entry _ _ r hentry hstep
        refine ⟨order, amount_update _ _ _ _ hinv.amount_eq ha, hinv.nodup, hinv.bound,
          ?_, ?_, ?_⟩
        · intro j hj
          dsimp only
          by_cases hji : j = i
          · subst hji
            rw [Function.update_same]
            exact Or.inr ⟨hpc, hret, by rw [hfees, ha]⟩
          · rw [Function.update_noteq hji]
            exact hinv.outside j hj
        · intro h
          have h2 : r.2.mutex = false := h
          rw [hs] at h2
          obtain ⟨hall, hd, hrets⟩ := hinv.free h2
          refine ⟨returned_update _ _ _ order hnot hall, ?_, ?_⟩
          · show r.2.data = _
            rw [hs]
            exact hd
          · rw [map_ret_update _ _ _ order hnot]
            exact hrets
        · intro h
          have h2 : r.2.mutex = true := h
          rw [hs] at h2
          obtain ⟨finished, k, hord, hfin, hrets, hin, hrest⟩ := hinv.held h2
          have hk : k ≠ i := by
            intro e
            apply hnot
            rw [hord, ← e]
            simp
          have hnf : i ∉ finished := by
            intro e
            apply hnot
            rw [hord]
            exact List.mem_append_left _ e
          refine ⟨finished, k, hord, returned_update _ _ _ finished hnf hfin, ?_, ?_, ?_⟩
          · rw [map_ret_update _ _ _ finished hnf]
            exact hrets
          · show (Function.update c.threads i r.1 k).pc.in_cs = true
            rw [Function.update_noteq hk]
            exact hin
          · show rest_of_call (Function.update c.threads i r.1 k) r.2.data =
              atomic_transfer_1 (serial d0 amounts finished).2
                (Function.update c.threads i r.1 k).amount
            rw [Function.update_noteq hk, hs]
            exact hrest
/-- A schedule keeps the invariant, for some order. -/
theorem SerialInv.after_exec {d0 : tx_data} {amounts : List Nat} (sched : List Nat) :
    ∀ (c : Config) (order : List Nat), SerialInv d0 amounts c order →
      ∀ c2, exec amounts.length c sched = some c2 →
        ∃ order2, SerialInv d0 amounts c2 order2 := by
  induction sched with
  | nil =>
    intro c order hinv c2 h
    simp only [exec, Option.some.injEq] at h
    subst h
    exact ⟨order, hinv⟩
  | cons i rest ih =>
    intro c order hinv c2 h
    simp only [exec] at h
    split_ifs at h with hi
    cases hstep : thread_step (c.threads i) c.shared with
    | none =>
      rw [hstep] at h
      exact absurd h (by simp)
    | some r =>
      rw [hstep] at h
      obtain ⟨order1, hinv1⟩ := hinv.step i hi r hstep
      exact ih _ order1 hinv1 c2 h

/-- When every call has returned, the order of the invariant lists every thread
once, the mutex is free, and data and return codes are those of the sequential
run in that order. -/
theorem SerialInv.final {d0 : tx_data} {amounts : List Nat} {c : Config}
    {order : List Nat} (hinv : SerialInv d0 amounts c order)
    (hall : all_returned amounts.length c) :
    order.Perm (List.range amounts.length) ∧
      c.shared.data = (serial d0 amounts order).2 ∧
      order.map (fun i => (c.threads i).ret) = (serial d0 amounts order).1 ∧
      c.shared.mutex = false := by
  have hm : c.shared.mutex = false := by
    cases hm : c.shared.mutex
    · rfl
    · obtain ⟨finished, h, hord, _, _, hin, _⟩ := hinv.held hm
      have hh : h < amounts.length := hinv.bound h (by simp [hord])
      rw [hall h hh] at hin
      simp [Pc.in_cs] at hin
  obtain ⟨_, hd, hrets⟩ := hinv.free hm
  refine ⟨?_, hd, hrets, hm⟩
  rw [List.perm_ext_iff_of_nodup hinv.nodup (List.nodup_range _)]
  intro i
  rw [List.mem_range]
  constructor
  · exact hinv.bound i
  · intro hi
    by_contra hn
    have hp := hall i hi
    rcases hinv.outside i hn with h | ⟨h, _, _⟩ <;> rw [hp] at h <;> exact absurd h (by decide)

/-- Each statement brings its thread strictly closer to its return. -/
theorem thread_step_remaining (t : Thread) (s : tx_state) (r : Thread × tx_state)
    (hstep : thread_step t s = some r) : r.1.pc.remaining < t.pc.remaining := by
  obtain ⟨a, pc, ret, fees⟩ := t
  cases pc <;> simp only [thread_step] at hstep <;>
    first
    | (split_ifs at hstep <;> simp only [Option.some.injEq] at hstep <;> subst hstep <;>
        simp [Pc.remaining])
    | (simp only [Option.some.injEq] at hstep; subst hstep; simp [Pc.remaining])
    | exact absurd hstep (by simp)

/-- Inside the critical section a thread can always execute its next statement. -/
theorem thread_step_of_in_cs (t : Thread) (s : tx_state) (hcs : t.pc.in_cs = true) :
    ∃ r, thread_step t s = some r := by
  obtain ⟨a, pc, ret, fees⟩ := t
  cases pc <;> simp only [Pc.in_cs] at hcs <;> simp only [thread_step]
  all_goals first
    | exact absurd hcs (by decide)
    | (split_ifs <;> exact ⟨_, rfl⟩)
    | exact ⟨_, rfl⟩

/-- No deadlock: while some call has not returned, some thread can move. -/
theorem SerialInv.progress {d0 : tx_data} {amounts : List Nat} {c : Config}
    {order : List Nat} (hinv : SerialInv d0 amounts c order)
    (hnot : ¬ all_returned amounts.length c) :
    ∃ i, i < amounts.length ∧ ∃ r, thread_step (c.threads i) c.shared = some r := by
  cases hm : c.shared.mutex
  · unfold all_returned at hnot
    push_neg at hnot
    obtain ⟨i, hi, hpc⟩ := hnot
    refine ⟨i, hi, ?_⟩
    have hn : i ∉ order := fun hmem => hpc ((hinv.free hm).1 i hmem)
    rcases hinv.outside i hn with h | ⟨h, _, _⟩
    · exact ⟨_, by simp only [thread_step, h]; rfl⟩
    · exact ⟨_, by simp only [thread_step, h, hm, Bool.false_eq_true, if_false]; rfl⟩
  · obtain ⟨finished, h, hord, _, _, hin, _⟩ := hinv.held hm
    exact ⟨h, hinv.bound h (by simp [hord]), thread_step_of_in_cs _ _ hin⟩

/-- A statement of one of the `n` threads lowers the work left. -/
theorem work_left_step (n : Nat) (c : Config) (i : Nat) (hi : i < n)
    (r : Thread × tx_state) (hstep : thread_step (c.threads i) c.shared = some r) :
    work_left n { threads := Function.update c.threads i r.1, shared := r.2 } <
      work_left n c := by
  unfold work_left
  apply List.sum_lt_sum
  · intro j _
    dsimp only
    by_cases hj : j = i
    · subst hj
      rw [Function.update_same]
      exact le_of_lt (thread_step_remaining _ _ r hstep)
    · rw [Function.update_noteq hj]
  · refine ⟨i, List.mem_range.mpr hi, ?_⟩
    dsimp only
    rw [Function.update_same]
    exact thread_step_remaining _ _ r hstep

/-- From every configuration that satisfies the invariant some schedule makes
every call return. -/
theorem SerialInv.complete {d0 : tx_data} {amounts : List Nat} (m : Nat) :
    ∀ (c : Config) (order : List Nat), SerialInv d0 amounts c order →
      work_left amounts.length c ≤ m →
      ∃ sched c2, exec amounts.length c sched = some c2 ∧
        all_returned amounts.length c2 := by
  induction m with
  | zero =>
    intro c order hinv hw
    by_cases hall : all_returned amounts.length c
    · exact ⟨[], c, rfl, hall⟩
    · obtain ⟨i, hi, r, hstep⟩ := hinv.progress hall
      have := work_left_step amounts.length c i hi r hstep
      omega
  | succ m ih =>
    intro c order hinv hw
    by_cases hall : all_returned amounts.length c
    · exact ⟨[], c, rfl, hall⟩
    · obtain ⟨i, hi, r, hstep⟩ := hinv.progress hall
      have hlt := work_left_step amounts.length c i hi r hstep
      obtain ⟨order1, hinv1⟩ := hinv.step i hi r hstep
      obtain ⟨sched, c2, hex, hall2⟩ := ih _ order1 hinv1 (by omega)
      refine ⟨i :: sched, c2, ?_, hall2⟩
      simp only [exec, hi, if_true, hstep]
      exact hex

/-- C9. Serializability: let any number of threads each call
`atomic_transfer_1` once on one shared account pair, starting with the mutex
free, and let a scheduler pick, statement by statement, which thread moves (a
thread at `pthread_mutex_lock` cannot move while the mutex is held). Whenever
all calls have returned, the final balances and the return code of every call
are those of applying the same calls sequentially in some order (an ordering of
all the threads, each once), and the mutex is free. No schedule gets stuck:
every partial execution can be continued until all calls have returned. -/
theorem serializability (d0 : tx_data) (amounts : List Nat) :
    (∀ (sched : List Nat) (c : Config),
      exec amounts.length (init_config d0 amounts) sched = some c →
      all_returned amounts.length c →
      ∃ order : List Nat, order.Perm (List.range amounts.length) ∧
        c.shared.data = (serial d0 amounts order).2 ∧
        order.map (fun i => (c.threads i).ret) = (serial d0 amounts order).1 ∧
        c.shared.mutex = false) ∧
    (∀ (sched : List Nat) (c : Config),
      exec amounts.length (init_config d0 amounts) sched = some c →
      ∃ (rest : List Nat) (c2 : Config),
        exec amounts.length c rest = some c2 ∧ all_returned amounts.length c2) := by
  constructor
  · intro sched c hexec hall
    obtain ⟨order, hinv⟩ := (SerialInv.init d0 amounts).after_exec sched _ [] c hexec
    exact ⟨order, hinv.final hall⟩
  · intro sched c hexec
    obtain ⟨order, hinv⟩ := (SerialInv.init d0 amounts).after_exec sched _ [] c hexec
    exact hinv.complete (work_left amounts.length c) c order (le_refl _)

/-- Instance of C9: two threads on `(10, 20)` with amounts 8 and 3. Thread 1
takes the mutex first and thread 0 executes its first statement in the middle
of the critical section of thread 1; the run ends with `(5, 23)`, thread 1
returning `0` and thread 0 returning `-2`, which is the sequential run of
amount 3 and then amount 8 (and not that of 8 and then 3, which ends with
`(0, 28)`). -/
theorem serializability_witness :
    ∃ c : Config,
      exec 2 (init_config ⟨10, 20⟩ [8, 3])
        [1, 1, 1, 0, 1, 1, 1, 1, 1, 0, 0, 0, 0, 0, 0] = some c ∧
      all_returned 2 c ∧
      c.shared = ⟨⟨5, 23⟩, false⟩ ∧ (c.threads 0).ret = -2 ∧ (c.threads 1).ret = 0 ∧
      run_seq atomic_transfer_1 ⟨10, 20⟩ [3, 8] = ([0, -2], ⟨5, 23⟩) ∧
      run_seq atomic_transfer_1 ⟨10, 20⟩ [8, 3] = ([0, -1], ⟨0, 28⟩) ∧
      ∃ order : List Nat, order.Perm (List.range 2) ∧
        c.shared.data = (serial ⟨10, 20⟩ [8, 3] order).2 ∧
        order.map (fun i => (c.threads i).ret) = (serial ⟨10, 20⟩ [8, 3] order).1 ∧
        c.shared.mutex = false :=
  ⟨_, rfl, by decide, by decide, by decide, by decide, by decide, by decide,
    (serializability ⟨10, 20⟩ [8, 3]).1
      [1, 1, 1, 0, 1, 1, 1, 1, 1, 0, 0, 0, 0, 0, 0] _ rfl (by decide)⟩

/-! ## C10: the receiver credit is unguarded -/

/-- C10. The credit to the receiver is unguarded: at sender 3, receiver
`2^32 - 1`, amount 1 both routines return `0` and store receiver `0`; so there
are 32-bit `s`, `r`, `a` for which the call returns `0` while `r + a ≥ 2^32` and
the stored receiver balance ends smaller than `r`. -/
theorem receiver_credit_wraps :
    atomic_transfer_1 ⟨3, 4294967295⟩ 1 = (0, ⟨0, 0⟩) ∧
      atomic_transfer_2 ⟨3, 4294967295⟩ 1 = (0, ⟨0, 0⟩) ∧
      ∃ s r a : Nat, s < UINT32_MOD ∧ r < UINT32_MOD ∧ a < UINT32_MOD ∧
        r + a ≥ UINT32_MOD ∧
        (atomic_transfer_1 ⟨s, r⟩ a).1 = 0 ∧ (atomic_transfer_1 ⟨s, r⟩ a).2.receiver < r ∧
        (atomic_transfer_2 ⟨s, r⟩ a).1 = 0 ∧ (atomic_transfer_2 ⟨s, r⟩ a).2.receiver < r :=
  ⟨by decide, by decide, 3, 4294967295, 1, by decide⟩

/-! ## C11: exact post-state of a successful call -/

/-- C11. Exact 32-bit post-state: for a 32-bit sender balance `s`, any `r` and
`a`, `atomic_transfer_1` returns `0` if and only if `s ≥ tx_fees a + a` (plain
integer sum), and in that case the new state is
`(s - tx_fees a - a, (r + a) mod 2^32)`. -/
theorem success_iff_and_post_state (s r a : Nat) (hs : s < UINT32_MOD) :
    ((atomic_transfer_1 ⟨s, r⟩ a).1 = 0 ↔ s ≥ tx_fees a + a) ∧
      (s ≥ tx_fees a + a →
        atomic_transfer_1 ⟨s, r⟩ a =
          (0, ⟨s - tx_fees a - a, (r + a) % UINT32_MOD⟩)) := by
  refine ⟨?_, fun h => atomic_transfer_1_success (d := ⟨s, r⟩) hs h⟩
  rcases atomic_transfer_1_cases ⟨s, r⟩ a hs with ⟨h, e⟩ | ⟨_, h, e⟩ | ⟨h, e⟩
  · rw [e]
    simp only at h
    constructor
    · intro h0
      simp at h0
    · intro h1
      omega
  · rw [e]
    simp only at h
    constructor
    · intro h0
      simp at h0
    · intro h1
      omega
  · rw [e]
    simp only at h
    exact ⟨fun _ => h, fun _ => rfl⟩

/-- Instance of C11 with a wrapping credit: sender 3, receiver `2^32 - 1`,
amount 1 returns `0` and leaves `(0, 0)`. -/
theorem success_iff_and_post_state_witness :
    3 < UINT32_MOD ∧ 3 ≥ tx_fees 1 + 1 ∧
      atomic_transfer_1 ⟨3, 4294967295⟩ 1 =
        (0, ⟨3 - tx_fees 1 - 1, (4294967295 + 1) % UINT32_MOD⟩) ∧
      (3 - tx_fees 1 - 1 = 0 ∧ (4294967295 + 1) % UINT32_MOD = 0) :=
  ⟨by decide, by decide,
    (success_iff_and_post_state 3 4294967295 1 (by decide)).2 (by decide), by decide⟩

/-! ## C12: money is never created -/

/-- C12. Money is never created: for a 32-bit sender balance and every amount,
after one call of `atomic_transfer_1` or `atomic_transfer_2` the plain integer
sum of the two stored balances is at most `s + r`, and at most
`s + r - tx_fees a` when the call returns `0` (stated as: the new sum plus the
fee is at most `s + r`), also when the receiver credit wraps. -/
theorem money_never_created (d : tx_data) (a : Nat) (hs : d.sender < UINT32_MOD) :
    ((atomic_transfer_1 d a).2.sender + (atomic_transfer_1 d a).2.receiver ≤
        d.sender + d.receiver ∧
      ((atomic_transfer_1 d a).1 = 0 →
        (atomic_transfer_1 d a).2.sender + (atomic_transfer_1 d a).2.receiver + tx_fees a ≤
          d.sender + d.receiver)) ∧
    ((atomic_transfer_2 d a).2.sender + (atomic_transfer_2 d a).2.receiver ≤
        d.sender + d.receiver ∧
      ((atomic_transfer_2 d a).1 = 0 →
        (atomic_transfer_2 d a).2.sender + (atomic_transfer_2 d a).2.receiver + tx_fees a ≤
          d.sender + d.receiver)) := by
  rw [← atomic_transfer_1_eq_2 d a]
  have key : (atomic_transfer_1 d a).2.sender + (atomic_transfer_1 d a).2.receiver ≤
        d.sender + d.receiver ∧
      ((atomic_transfer_1 d a).1 = 0 →
        (atomic_transfer_1 d a).2.sender + (atomic_transfer_1 d a).2.receiver + tx_fees a ≤
          d.sender + d.receiver) := by
    rcases atomic_transfer_1_cases d a hs with ⟨_, e⟩ | ⟨_, _, e⟩ | ⟨h, e⟩
    · rw [e]
      exact ⟨le_refl _, fun h0 => by simp at h0⟩
    · rw [e]
      exact ⟨le_refl _, fun h0 => by simp at h0⟩
    · rw [e]
      have hmod : (d.receiver + a) % UINT32_MOD ≤ d.receiver + a := Nat.mod_le _ _
      simp only
      refine ⟨by omega, fun _ => by omega⟩
  exact ⟨key, key⟩

/-- Instance of C12 with a wrapping credit: from `(3, 2^32 - 1)` the call with
amount 1 returns `0` and leaves total `0`. -/
theorem money_never_created_witness :
    3 < UINT32_MOD ∧ atomic_transfer_1 ⟨3, 4294967295⟩ 1 = (0, ⟨0, 0⟩) ∧
      (atomic_transfer_1 ⟨3, 4294967295⟩ 1).2.sender +
          (atomic_transfer_1 ⟨3, 4294967295⟩ 1).2.receiver + tx_fees 1 ≤
        3 + 4294967295 :=
  ⟨by decide, by decide,
    (money_never_created ⟨3, 4294967295⟩ 1 (by decide)).1.2 (by decide)⟩

/-! ## C13: bounded number of successes -/

/-- Every fee is at least 2. -/
theorem two_le_tx_fees (a : Nat) : 2 ≤ tx_fees a := by
  unfold tx_fees
  split_ifs <;> omega

/-- With a sender balance below 2 every call fails on the fee check. -/
theorem run_seq_1_broke (amounts : List Nat) (d : tx_data) (hd : d.sender < 2) :
    run_seq atomic_transfer_1 d amounts = (List.replicate amounts.length (-1), d) := by
  induction amounts with
  | nil => simp [run_seq]
  | cons a rest ih =>
    have hf : d.sender < tx_fees a := lt_of_lt_of_le hd (two_le_tx_fees a)
    simp [run_seq, atomic_transfer_1_fee_fail hf, ih, List.replicate_succ]

/-- Each call that returns `0` costs the sender at least 2, and no call raises
the sender balance. -/
theorem run_seq_1_successes (amounts : List Nat) :
    ∀ d : tx_data, d.sender < UINT32_MOD →
      2 * (run_seq atomic_transfer_1 d amounts).1.count 0 +
        (run_seq atomic_transfer_1 d amounts).2.sender ≤ d.sender := by
  induction amounts with
  | nil =>
    intro d _
    simp [run_seq]
  | cons a rest ih =>
    intro d hs
    have hf := two_le_tx_fees a
    rcases atomic_transfer_1_cases d a hs with ⟨_, e⟩ | ⟨_, _, e⟩ | ⟨h, e⟩
    · have := ih d hs
      simp only [run_seq, e, List.count_cons]
      simpa using this
    · have := ih d hs
      simp only [run_seq, e, List.count_cons]
      simpa using this
    · have := ih ⟨d.sender - tx_fees a - a, (d.receiver + a) % UINT32_MOD⟩
        (by simp only; omega)
      simp only [run_seq, e, List.count_cons] at this ⊢
      simp only [beq_self_eq_true, if_true]
      omega

/-- C13. Bounded number of successes: `tx_fees a ≥ 2` for every amount; hence,
from a 32-bit sender balance `S0`, in any finite sequence of calls of
`atomic_transfer_1` (or of `atomic_transfer_2`) at most `S0 / 2` (floor) calls
return `0`; and once the sender balance is below 2 every further call returns
`-1` and changes nothing, also for amount 0. -/
theorem bounded_successes (d : tx_data) (pre post : List Nat)
    (hs : d.sender < UINT32_MOD) :
    (∀ a : Nat, 2 ≤ tx_fees a) ∧
      (run_seq atomic_transfer_1 d pre).1.count 0 ≤ d.sender / 2 ∧
      (run_seq atomic_transfer_2 d pre).1.count 0 ≤ d.sender / 2 ∧
      ((run_seq atomic_transfer_1 d pre).2.sender < 2 →
        run_seq atomic_transfer_1 d (pre ++ post) =
          ((run_seq atomic_transfer_1 d pre).1 ++ List.replicate post.length (-1),
            (run_seq atomic_transfer_1 d pre).2)) ∧
      ((run_seq atomic_transfer_2 d pre).2.sender < 2 →
        run_seq atomic_transfer_2 d (pre ++ post) =
          ((run_seq atomic_transfer_2 d pre).1 ++ List.replicate post.length (-1),
            (run_seq atomic_transfer_2 d pre).2)) ∧
      (d.sender < 2 →
        atomic_transfer_1 d 0 = (-1, d) ∧ atomic_transfer_2 d 0 = (-1, d)) := by
  have e : atomic_transfer_2 = atomic_transfer_1 := by
    funext x y
    exact (atomic_transfer_1_eq_2 x y).symm
  have hcount : (run_seq atomic_transfer_1 d pre).1.count 0 ≤ d.sender / 2 := by
    have := run_seq_1_successes pre d hs
    omega
  have hbroke : (run_seq atomic_transfer_1 d pre).2.sender < 2 →
      run_seq atomic_transfer_1 d (pre ++ post) =
        ((run_seq atomic_transfer_1 d pre).1 ++ List.replicate post.length (-1),
          (run_seq atomic_transfer_1 d pre).2) := by
    intro h
    rw [run_seq_append, run_seq_1_broke post _ h]
  rw [e]
  refine ⟨two_le_tx_fees, hcount, hcount, hbroke, hbroke, fun h => ?_⟩
  have hf : d.sender < tx_fees 0 := lt_of_lt_of_le h (two_le_tx_fees 0)
  exact ⟨atomic_transfer_1_fee_fail hf, atomic_transfer_1_fee_fail hf⟩

/-- Instance of C13: from `(5, 0)` the amounts 1, 0 succeed and leave sender 0;
the further amounts 0 and 1 both return `-1`; two successes, `5 / 2 = 2`. -/
theorem bounded_successes_witness :
    5 < UINT32_MOD ∧
      run_seq atomic_transfer_1 ⟨5, 0⟩ [1, 0] = ([0, 0], ⟨0, 1⟩) ∧
      (run_seq atomic_transfer_1 ⟨5, 0⟩ [1, 0]).1.count 0 ≤ 5 / 2 ∧
      run_seq atomic_transfer_1 ⟨5, 0⟩ ([1, 0] ++ [0, 1]) =
        ((run_seq atomic_transfer_1 ⟨5, 0⟩ [1, 0]).1 ++ List.replicate [0, 1].length (-1),
          (run_seq atomic_transfer_1 ⟨5, 0⟩ [1, 0]).2) ∧
      run_seq atomic_transfer_1 ⟨5, 0⟩ [1, 0, 0, 1] = ([0, 0, -1, -1], ⟨0, 1⟩) :=
  ⟨by decide, by decide,
    (bounded_successes ⟨5, 0⟩ [1, 0] [0, 1] (by decide)).2.1,
    (bounded_successes ⟨5, 0⟩ [1, 0] [0, 1] (by decide)).2.2.2.1 (by decide),
    by decide⟩

/-! ## C14: the fee is monotone -/

/-- C14. `tx_fees` is monotonically non-decreasing, across all tier boundaries:
for all amounts `a ≤ b`, `tx_fees a ≤ tx_fees b`. -/
theorem tx_fees_monotone (a b : Nat) (h : a ≤ b) : tx_fees a ≤ tx_fees b := by
  unfold tx_fees
  split_ifs <;> omega

/-- Instance of C14 across the boundary at 500: `tx_fees 500 ≤ tx_fees 501`
(both are 10). -/
theorem tx_fees_monotone_witness :
    500 ≤ 501 ∧ tx_fees 500 ≤ tx_fees 501 ∧ tx_fees 500 = 10 ∧ tx_fees 501 = 10 :=
  ⟨by decide, tx_fees_monotone 500 501 (by decide), by decide, by decide⟩

end AtomicTx
